import Mathlib

set_option maxRecDepth 40000

/-!
Shallow embedding of the boundary-tag memory allocator in `coalesce.c`.

The program manages one global byte array `area` of `BYTE_COUNT = 256`
unsigned chars.  We model the array as a total function `Nat → Nat` whose
values are always kept below 256: the zero-initialised C global is
`area0`, and every store goes through `upd`, which truncates the stored
value modulo 256 exactly as an `unsigned char` assignment does.

The two loops of the program (the first-fit scan of `simple_allocate`
and the right-coalesce loop of `simple_release`) are written with an
explicit fuel parameter of `BYTE_COUNT` steps.  Every loop step advances
by at least 4 bytes inside a 256-byte arena, so the fuel is never
exhausted on any input the loops are actually run on; the guards also
carry the bound `< BYTE_COUNT`, which on every reachable state is never
the deciding conjunct (the scan in C reads only in-bounds bytes there;
reading past the array would be undefined behaviour in C).
-/

namespace Coalesce

def FREE : Nat := 0

def ALLOCATED : Nat := 1

def BYTE_COUNT : Nat := 256

def MIN_PAYLOAD_SIZE : Nat := 2

def MIN_BLOCK_SIZE : Nat := 6

def HEADER_SIZE : Nat := 2

def CONTROL_FIELDS_SIZE : Nat := 4

/-- The byte array, modelled as a total function from byte offsets to
byte values. -/
abbrev Arena := Nat → Nat

/-- One store of an `unsigned char`: the written value is truncated
modulo 256. -/
def upd (a : Arena) (i v : Nat) : Arena := fun j => if j = i then v % 256 else a j

/-- The zero-initialised C global array `area`. -/
def area0 : Arena := fun _ => 0

/-- Translation of `simple_init` (lines 84-102): writes the bottom
sentinel bytes 0-3, the single middle free block of payload
`BYTE_COUNT - 12 = 244` (bytes 4, 5, 250, 251) and the top sentinel
bytes 252-255, in the source's order.  (The source's comments on
`area[2]` and `area[3]` are swapped relative to the block layout, but
the stored byte values encode the correct zero-payload allocated
sentinel.) -/
def simple_init : Arena :=
  upd (upd (upd (upd (upd (upd (upd (upd (upd (upd (upd (upd area0
    0 ALLOCATED) 1 0) 2 0) 3 ALLOCATED)
    4 FREE) 5 (BYTE_COUNT - 12)) (BYTE_COUNT - 6) (BYTE_COUNT - 12)) (BYTE_COUNT - 5) FREE)
    (BYTE_COUNT - 4) ALLOCATED) (BYTE_COUNT - 3) 0) (BYTE_COUNT - 2) 0) (BYTE_COUNT - 1) ALLOCATED

/-- The search loop of `simple_allocate` (lines 128-152).  Each
iteration inspects the block at `block_ptr`; on a fit it performs the
source's sequence of byte stores (consume the block whole, or split it,
with every macro read re-reading the current array exactly as the C
macros do) and returns `USER_PTR = block_ptr + HEADER_SIZE` together
with the mutated arena; otherwise it advances by
`BLOCK_SIZE = TOP_SIZE + CONTROL_FIELDS_SIZE`. -/
def allocLoop (req : Nat) : Nat → Arena → Nat → Option (Nat × Arena)
  | 0, _, _ => none
  | fuel+1, a, block_ptr =>
    if block_ptr < BYTE_COUNT then
      if a block_ptr = FREE ∧ req ≤ a (block_ptr + 1) then
        if a (block_ptr + 1) - req < MIN_BLOCK_SIZE then
          let a1 := upd a block_ptr ALLOCATED
          let a2 := upd a1 (block_ptr + a1 (block_ptr + 1) + 3) ALLOCATED
          some (block_ptr + HEADER_SIZE, a2)
        else
          let remaining := a (block_ptr + 1) - req - CONTROL_FIELDS_SIZE
          let b1 := upd a (block_ptr + a (block_ptr + 1) + 2) remaining
          let b2 := upd b1 block_ptr ALLOCATED
          let b3 := upd b2 (block_ptr + 1) req
          let b4 := upd b3 (block_ptr + b3 (block_ptr + 1) + 2) req
          let b5 := upd b4 (block_ptr + b4 (block_ptr + 1) + 3) ALLOCATED
          let b6 := upd b5 (block_ptr + b5 (block_ptr + 1) + 4) FREE
          let b7 := upd b6 (block_ptr + b6 (block_ptr + 1) + 5) remaining
          some (block_ptr + HEADER_SIZE, b7)
      else allocLoop req fuel a (block_ptr + (a (block_ptr + 1) + CONTROL_FIELDS_SIZE))
    else none

/-- Translation of `simple_allocate` (lines 118-155): requests larger
than `BYTE_COUNT - CONTROL_FIELDS_SIZE = 252` are rejected before the
loop; otherwise the first-fit scan starts at offset 0.  `none` models
the `NULL` return; `some (p, a)` models returning user pointer `p` with
the global array now equal to `a`. -/
def simple_allocate (a : Arena) (req_size : Nat) : Option (Nat × Arena) :=
  if BYTE_COUNT - CONTROL_FIELDS_SIZE < req_size then none
  else allocLoop req_size BYTE_COUNT a 0

/-- The address of the global array `area`.  The array is declared with
an alignment of 65536 and, being an object of static storage duration,
has a nonzero address; any concrete nonzero value works for the model,
and the alignment value is a natural choice. -/
def AREA_BASE : Nat := 65536

/-- The left-coalesce loop of `simple_release` (lines 168-172).  The
source's guard is `left_block == FREE`, which compares the pointer
`left_block = block_ptr - 1` itself (address `AREA_BASE + (block_ptr -
1)`, never the null pointer) against `FREE == 0`, instead of
dereferencing it.  The guard is therefore always false and the loop
body never executes; the body is still translated faithfully (both of
its reads of `*(block_ptr - 2)` use the not-yet-updated `block_ptr`). -/
def leftLoop : Nat → Arena → Nat → Nat → Nat × Nat
  | 0, _, block_ptr, t_size => (block_ptr, t_size)
  | fuel+1, a, block_ptr, t_size =>
    if AREA_BASE + (block_ptr - 1) = 0 then
      leftLoop fuel a (block_ptr - 4 - a (block_ptr - 2)) (a (block_ptr - 2) + t_size)
    else (block_ptr, t_size)

/-- The right-coalesce loop of `simple_release` (lines 175-177): while
the top status of the next block `*(block_ptr + t_size + 4)` is `FREE`,
absorb it: `t_size = *(block_ptr + 5 + t_size) + t_size + 4`. -/
def rightLoop : Nat → Arena → Nat → Nat → Nat
  | 0, _, _, t_size => t_size
  | fuel+1, a, block_ptr, t_size =>
    if block_ptr + t_size + 4 < BYTE_COUNT ∧ a (block_ptr + t_size + 4) = FREE then
      rightLoop fuel a block_ptr (a (block_ptr + 5 + t_size) + t_size + 4)
    else t_size

/-- Translation of `simple_release` (lines 161-182): recover
`block_ptr = user_ptr - HEADER_SIZE`, read `t_size = TOP_SIZE`, mark
head and tail status `FREE`, run the (dead) left-coalesce loop and then
the right-coalesce loop, and finally store the merged size into
`TOP_SIZE` and `BOTTOM_SIZE` (the latter addressed through the freshly
updated `TOP_SIZE`, as the macro does). -/
def simple_release (a : Arena) (user_ptr : Nat) : Arena :=
  let block_ptr := user_ptr - HEADER_SIZE
  let t0 := a (block_ptr + 1)
  let a1 := upd a block_ptr FREE
  let a2 := upd a1 (block_ptr + a1 (block_ptr + 1) + 3) FREE
  let lp := leftLoop BYTE_COUNT a2 block_ptr t0
  let t := rightLoop BYTE_COUNT a2 lp.1 lp.2
  let a3 := upd a2 (lp.1 + 1) t
  let a4 := upd a3 (lp.1 + a3 (lp.1 + 1) + 2) t
  a4

/-- The block traversal used by `print_blocks` (lines 104-116): starting
at offset 0, list `(offset, top status, top size)` for each block and
advance by `BLOCK_SIZE` while the offset is below `BYTE_COUNT`. -/
def blocksF : Nat → Arena → Nat → List (Nat × Nat × Nat)
  | 0, _, _ => []
  | fuel+1, a, block_ptr =>
    if block_ptr < BYTE_COUNT then
      (block_ptr, a block_ptr, a (block_ptr + 1)) ::
        blocksF fuel a (block_ptr + (a (block_ptr + 1) + CONTROL_FIELDS_SIZE))
    else []

/-- The list of blocks of an arena, head to tail. -/
def blocks (a : Arena) : List (Nat × Nat × Nat) := blocksF BYTE_COUNT a 0

/-- A state of the program: the arena together with the outstanding
(allocated and not yet released) user pointers, most recent first. -/
structure AState where
  arena : Arena
  handles : List Nat

/-- One call of the test driver: an allocation request, or a release of
the i-th outstanding handle (so releases are by construction only ever
performed on valid outstanding handles). -/
inductive Op where
  | alloc (req : Nat)
  | release (i : Nat)

/-- The state right after `simple_init`, with no outstanding handles. -/
def initState : AState := ⟨simple_init, []⟩

/-- Execute one call against the current state.  A failed allocation
returns `NULL` and leaves the global array untouched; a release of an
out-of-range handle index is not performed. -/
def step (s : AState) : Op → AState
  | .alloc req =>
    match simple_allocate s.arena req with
    | none => s
    | some pa => ⟨pa.2, pa.1 :: s.handles⟩
  | .release i =>
    if h : i < s.handles.length then
      ⟨simple_release s.arena (s.handles.get ⟨i, h⟩), s.handles.eraseIdx i⟩
    else s

/-- Run a sequence of calls from the freshly initialised state. -/
def run (ops : List Op) : AState := ops.foldl step initState

/-- Boolean check: every block's trailer size and status bytes agree
with its header bytes. -/
def headTailOk (a : Arena) : Bool :=
  (blocks a).all fun b =>
    (a (b.1 + b.2.2 + 2) == b.2.2) && (a (b.1 + b.2.2 + 3) == b.2.1)

/-- The sum of `block_size = payload_size + CONTROL_FIELDS_SIZE` over
all blocks of the arena. -/
def blockSizeSum (a : Arena) : Nat :=
  ((blocks a).map fun b => b.2.2 + CONTROL_FIELDS_SIZE).sum

/-- Boolean form of the structural arena invariant: header/trailer
agreement for every block, and the block sizes partition the whole
arena exactly. -/
def arenaCheck (a : Arena) : Bool :=
  headTailOk a && (blockSizeSum a == BYTE_COUNT)

/-- The arena produced by the consume branch of `simple_allocate`
(lines 131-132) when the free block at `off` is taken whole, with the
macro re-reads already resolved. -/
def consumeArena (a : Arena) (off : Nat) : Arena :=
  upd (upd a off ALLOCATED) (off + a (off + 1) + 3) ALLOCATED

/-- The arena produced by the split branch of `simple_allocate`
(lines 135-146), with the macro re-reads already resolved: after
`TOP_SIZE = req` is stored, the macros address the trailer of the
shrunk block through the stored byte `req % 256`. -/
def splitArena (a : Arena) (off req : Nat) : Arena :=
  upd (upd (upd (upd (upd (upd (upd a
    (off + a (off + 1) + 2) (a (off + 1) - req - CONTROL_FIELDS_SIZE))
    off ALLOCATED)
    (off + 1) req)
    (off + req % 256 + 2) req)
    (off + req % 256 + 3) ALLOCATED)
    (off + req % 256 + 4) FREE)
    (off + req % 256 + 5) (a (off + 1) - req - CONTROL_FIELDS_SIZE)

/-- Boolean round-trip check for one request size on the freshly
initialised arena: if the allocation succeeds, releasing the returned
handle must restore the block list of the initial arena. -/
def roundTrip (n : Nat) : Bool :=
  match simple_allocate simple_init n with
  | none => true
  | some pa => blocks (simple_release pa.2 pa.1) == blocks simple_init

/-- An abstract block: its status and its payload size. -/
abbrev ABlock := Nat × Nat

/-- Total byte footprint of a list of abstract blocks. -/
def sizeSum : List ABlock → Nat
  | [] => 0
  | b :: rest => b.2 + 4 + sizeSum rest

/-- The bytes of arena `a` lay out the abstract blocks `l` contiguously
from offset `off` to offset `fin`: each block stores its status and
payload size in both its header and its trailer. -/
def layoutSeg (a : Arena) : List ABlock → Nat → Nat → Prop
  | [], off, fin => off = fin
  | b :: rest, off, fin =>
      a off = b.1 ∧ a (off + 1) = b.2 ∧
      a (off + b.2 + 2) = b.2 ∧ a (off + b.2 + 3) = b.1 ∧
      layoutSeg a rest (off + b.2 + 4) fin

/-- Annotate each abstract block with its starting offset. -/
def offsets : List ABlock → Nat → List (Nat × ABlock)
  | [], _ => []
  | b :: rest, off => (off, b) :: offsets rest (off + b.2 + 4)

/-- The permanently allocated zero-payload sentinel block. -/
def sentinel : ABlock := (ALLOCATED, 0)

/-- The reachability invariant: the arena lays out a list of blocks
bounded by the two sentinels, and every outstanding handle points just
past the header of a non-sentinel block that is currently allocated. -/
def Inv (s : AState) : Prop :=
  ∃ L : List ABlock,
    layoutSeg s.arena L 0 BYTE_COUNT ∧
    (∃ mid, L = sentinel :: mid ++ [sentinel]) ∧
    s.handles.Nodup ∧
    ∀ u ∈ s.handles, u - 2 ≠ 0 ∧ u - 2 ≠ 252 ∧
      ∃ q, (u - 2, (ALLOCATED, q)) ∈ offsets L 0

/-! Basic facts about byte reads and the left-coalesce loop. -/

theorem upd_read_self (a : Arena) (i v : Nat) : upd a i v i = v % 256 := by
  simp [upd]

theorem upd_read_ne (a : Arena) (i v j : Nat) (h : j ≠ i) : upd a i v j = a j := by
  simp [upd, h]

theorem leftLoop_eq (fuel : Nat) (a : Arena) (bp t : Nat) :
    leftLoop fuel a bp t = (bp, t) := by
  cases fuel with
  | zero => rfl
  | succ f => simp [leftLoop, AREA_BASE]

/-- The consume branch of the allocation loop. -/
theorem allocLoop_found_consume (fuel : Nat) (a : Arena) (off req : Nat)
    (hoff : off < BYTE_COUNT) (hfree : a off = FREE ∧ req ≤ a (off + 1))
    (hsmall : a (off + 1) - req < MIN_BLOCK_SIZE) :
    allocLoop req (fuel + 1) a off = some (off + HEADER_SIZE, consumeArena a off) := by
  conv_lhs => rw [allocLoop]
  rw [if_pos hoff, if_pos hfree, if_pos hsmall]
  simp (disch := omega) only [consumeArena, upd_read_self, upd_read_ne]

/-- The split branch of the allocation loop. -/
theorem allocLoop_found_split (fuel : Nat) (a : Arena) (off req : Nat)
    (hoff : off < BYTE_COUNT) (hfree : a off = FREE ∧ req ≤ a (off + 1))
    (hsmall : ¬ (a (off + 1) - req < MIN_BLOCK_SIZE)) :
    allocLoop req (fuel + 1) a off = some (off + HEADER_SIZE, splitArena a off req) := by
  conv_lhs => rw [allocLoop]
  rw [if_pos hoff, if_pos hfree, if_neg hsmall]
  simp (disch := omega) only [splitArena, upd_read_self, upd_read_ne]

/-- The skip case of the allocation loop. -/
theorem allocLoop_skip (fuel : Nat) (a : Arena) (off req : Nat)
    (hoff : off < BYTE_COUNT) (hfree : ¬ (a off = FREE ∧ req ≤ a (off + 1))) :
    allocLoop req (fuel + 1) a off
      = allocLoop req fuel a (off + (a (off + 1) + CONTROL_FIELDS_SIZE)) := by
  conv_lhs => rw [allocLoop]
  rw [if_pos hoff, if_neg hfree]

/-- The allocation loop stops at the end of the arena. -/
theorem allocLoop_stop (fuel : Nat) (a : Arena) (off req : Nat)
    (hoff : ¬ off < BYTE_COUNT) :
    allocLoop req (fuel + 1) a off = none := by
  conv_lhs => rw [allocLoop]
  rw [if_neg hoff]

/-- Normal form of `simple_release` after resolving the dead left loop
and the macro re-reads. -/
theorem simple_release_eq (a : Arena) (u : Nat) :
    simple_release a u =
      upd (upd (upd (upd a (u - HEADER_SIZE) FREE)
          (u - HEADER_SIZE + a (u - HEADER_SIZE + 1) + 3) FREE)
        (u - HEADER_SIZE + 1)
        (rightLoop BYTE_COUNT
          (upd (upd a (u - HEADER_SIZE) FREE)
            (u - HEADER_SIZE + a (u - HEADER_SIZE + 1) + 3) FREE)
          (u - HEADER_SIZE) (a (u - HEADER_SIZE + 1))))
        (u - HEADER_SIZE +
          (rightLoop BYTE_COUNT
            (upd (upd a (u - HEADER_SIZE) FREE)
              (u - HEADER_SIZE + a (u - HEADER_SIZE + 1) + 3) FREE)
            (u - HEADER_SIZE) (a (u - HEADER_SIZE + 1))) % 256 + 2)
        (rightLoop BYTE_COUNT
          (upd (upd a (u - HEADER_SIZE) FREE)
            (u - HEADER_SIZE + a (u - HEADER_SIZE + 1) + 3) FREE)
          (u - HEADER_SIZE) (a (u - HEADER_SIZE + 1))) := by
  simp (disch := omega) only [simple_release, leftLoop_eq, upd_read_self, upd_read_ne]

/-- A request of 0 succeeds on any arena whose block list contains a
free block: the scan reaches the first free block and both the consume
and the split branch return a pointer. -/
theorem allocLoop_zero_isSome : ∀ (fuel : Nat) (a : Arena) (off : Nat),
    ((blocksF fuel a off).any fun b => b.2.1 == FREE) = true →
    (allocLoop 0 fuel a off).isSome = true := by
  intro fuel
  induction fuel with
  | zero => intro a off h; simp [blocksF] at h
  | succ f ih =>
    intro a off h
    by_cases hoff : off < BYTE_COUNT
    · rw [blocksF, if_pos hoff] at h
      simp only [List.any_cons, Bool.or_eq_true, beq_iff_eq] at h
      by_cases hfree : a off = FREE
      · have hguard : a off = FREE ∧ 0 ≤ a (off + 1) := ⟨hfree, Nat.zero_le _⟩
        by_cases hsmall : a (off + 1) - 0 < MIN_BLOCK_SIZE
        · rw [allocLoop_found_consume f a off 0 hoff hguard hsmall]; rfl
        · rw [allocLoop_found_split f a off 0 hoff hguard hsmall]; rfl
      · rcases h with h | h
        · exact absurd h hfree
        · rw [allocLoop_skip f a off 0 hoff (fun hc => hfree hc.1)]
          exact ih a _ h
    · rw [blocksF, if_neg hoff] at h
      simp at h

/-! Lemmas about abstract block layouts. -/

theorem sizeSum_cons (b : ABlock) (t : List ABlock) :
    sizeSum (b :: t) = b.2 + 4 + sizeSum t := rfl

theorem sizeSum_append (l₁ l₂ : List ABlock) :
    sizeSum (l₁ ++ l₂) = sizeSum l₁ + sizeSum l₂ := by
  induction l₁ with
  | nil => simp [sizeSum]
  | cons b t ih => simp only [List.cons_append, sizeSum_cons, ih]; omega

theorem sizeSum_ge (l : List ABlock) : 4 * l.length ≤ sizeSum l := by
  induction l with
  | nil => simp [sizeSum]
  | cons b t ih => simp only [sizeSum_cons, List.length_cons]; omega

theorem layoutSeg_sum {a : Arena} :
    ∀ (l : List ABlock) (off fin : Nat), layoutSeg a l off fin → fin = off + sizeSum l := by
  intro l
  induction l with
  | nil =>
    intro off fin h
    simp only [layoutSeg] at h
    simp [sizeSum, h]
  | cons b t ih =>
    intro off fin h
    simp only [layoutSeg] at h
    have := ih _ _ h.2.2.2.2
    simp only [sizeSum_cons]
    omega

theorem layoutSeg_append_of {a : Arena} :
    ∀ (l₁ l₂ : List ABlock) (off mid fin : Nat),
      layoutSeg a l₁ off mid → layoutSeg a l₂ mid fin →
      layoutSeg a (l₁ ++ l₂) off fin := by
  intro l₁
  induction l₁ with
  | nil =>
    intro l₂ off mid fin h1 h2
    simp only [layoutSeg] at h1
    simpa [h1] using h2
  | cons b t ih =>
    intro l₂ off mid fin h1 h2
    simp only [layoutSeg] at h1 ⊢
    exact ⟨h1.1, h1.2.1, h1.2.2.1, h1.2.2.2.1, ih _ _ _ _ h1.2.2.2.2 h2⟩

theorem layoutSeg_append_inv {a : Arena} :
    ∀ (l₁ l₂ : List ABlock) (off fin : Nat),
      layoutSeg a (l₁ ++ l₂) off fin →
      layoutSeg a l₁ off (off + sizeSum l₁) ∧ layoutSeg a l₂ (off + sizeSum l₁) fin := by
  intro l₁
  induction l₁ with
  | nil =>
    intro l₂ off fin h
    constructor
    · simp [layoutSeg, sizeSum]
    · simpa [sizeSum] using h
  | cons b t ih =>
    intro l₂ off fin h
    simp only [List.cons_append, layoutSeg] at h
    obtain ⟨h1, h2, h3, h4, h5⟩ := h
    obtain ⟨ha, hb⟩ := ih _ _ _ h5
    have harith : off + sizeSum (b :: t) = off + b.2 + 4 + sizeSum t := by
      simp only [sizeSum_cons]; omega
    rw [harith]
    exact ⟨⟨h1, h2, h3, h4, ha⟩, hb⟩

theorem layoutSeg_frame {a a2 : Arena} :
    ∀ (l : List ABlock) (off fin : Nat), layoutSeg a l off fin →
      (∀ i, off ≤ i → i < fin → a2 i = a i) → layoutSeg a2 l off fin := by
  intro l
  induction l with
  | nil => intro off fin h _; exact h
  | cons b t ih =>
    intro off fin h hf
    simp only [layoutSeg] at h ⊢
    obtain ⟨h1, h2, h3, h4, h5⟩ := h
    have hsum := layoutSeg_sum t _ _ h5
    refine ⟨?_, ?_, ?_, ?_, ih _ _ h5 (fun i hi1 hi2 => hf i (by omega) hi2)⟩
    · rw [hf off (by omega) (by omega)]; exact h1
    · rw [hf (off + 1) (by omega) (by omega)]; exact h2
    · rw [hf (off + b.2 + 2) (by omega) (by omega)]; exact h3
    · rw [hf (off + b.2 + 3) (by omega) (by omega)]; exact h4

theorem layoutSeg_last_bytes {a : Arena} :
    ∀ (l : List ABlock) (off fin : Nat) (b : ABlock),
      layoutSeg a l off fin → l.getLast? = some b →
      a (fin - 2) = b.2 ∧ a (fin - 1) = b.1 := by
  intro l
  induction l with
  | nil => intro off fin b _ hlast; cases hlast
  | cons hd t ih =>
    intro off fin b h hlast
    simp only [layoutSeg] at h
    obtain ⟨h1, h2, h3, h4, h5⟩ := h
    cases t with
    | nil =>
      simp only [List.getLast?_singleton, Option.some.injEq] at hlast
      subst hlast
      simp only [layoutSeg] at h5
      subst h5
      constructor
      · rw [show off + hd.2 + 4 - 2 = off + hd.2 + 2 from by omega]; exact h3
      · rw [show off + hd.2 + 4 - 1 = off + hd.2 + 3 from by omega]; exact h4
    | cons c t' =>
      rw [List.getLast?_cons_cons] at hlast
      exact ih _ _ _ h5 hlast

/-! Lemmas about offset-annotated block lists. -/

theorem offsets_cons (b : ABlock) (t : List ABlock) (off : Nat) :
    offsets (b :: t) off = (off, b) :: offsets t (off + b.2 + 4) := rfl

theorem offsets_append :
    ∀ (l₁ l₂ : List ABlock) (off : Nat),
      offsets (l₁ ++ l₂) off = offsets l₁ off ++ offsets l₂ (off + sizeSum l₁) := by
  intro l₁
  induction l₁ with
  | nil => intro l₂ off; simp [offsets, sizeSum]
  | cons b t ih =>
    intro l₂ off
    rw [show off + sizeSum (b :: t) = off + b.2 + 4 + sizeSum t from by
      simp only [sizeSum_cons]; omega]
    simp only [List.cons_append, offsets_cons, ih, List.cons_append]

theorem mem_offsets_block :
    ∀ (l : List ABlock) (off o : Nat) (b : ABlock), (o, b) ∈ offsets l off → b ∈ l := by
  intro l
  induction l with
  | nil => intro off o b h; simp [offsets] at h
  | cons hd t ih =>
    intro off o b h
    rw [offsets_cons, List.mem_cons] at h
    rcases h with h | h
    · simp only [Prod.mk.injEq] at h
      rw [h.2]
      exact List.mem_cons_self hd t
    · exact List.mem_cons_of_mem hd (ih _ _ _ h)

theorem mem_offsets_ge :
    ∀ (l : List ABlock) (off o : Nat) (b : ABlock), (o, b) ∈ offsets l off → off ≤ o := by
  intro l
  induction l with
  | nil => intro off o b h; simp [offsets] at h
  | cons hd t ih =>
    intro off o b h
    rw [offsets_cons, List.mem_cons] at h
    rcases h with h | h
    · simp only [Prod.mk.injEq] at h
      omega
    · have := ih _ _ _ h
      omega

theorem mem_offsets_ubound :
    ∀ (l : List ABlock) (off o : Nat) (b : ABlock),
      (o, b) ∈ offsets l off → o + b.2 + 4 ≤ off + sizeSum l := by
  intro l
  induction l with
  | nil => intro off o b h; simp [offsets] at h
  | cons hd t ih =>
    intro off o b h
    rw [offsets_cons, List.mem_cons] at h
    simp only [sizeSum_cons]
    rcases h with h | h
    · simp only [Prod.mk.injEq] at h
      obtain ⟨h1, h2⟩ := h
      subst h1
      subst h2
      omega
    · have := ih _ _ _ h
      omega

theorem layout_offsets_bytes {a : Arena} :
    ∀ (l : List ABlock) (off fin o : Nat) (b : ABlock),
      layoutSeg a l off fin → (o, b) ∈ offsets l off →
      a o = b.1 ∧ a (o + 1) = b.2 ∧ a (o + b.2 + 2) = b.2 ∧ a (o + b.2 + 3) = b.1 := by
  intro l
  induction l with
  | nil => intro off fin o b _ h; simp [offsets] at h
  | cons hd t ih =>
    intro off fin o b hlay h
    simp only [layoutSeg] at hlay
    obtain ⟨h1, h2, h3, h4, h5⟩ := hlay
    rw [offsets_cons, List.mem_cons] at h
    rcases h with h | h
    · simp only [Prod.mk.injEq] at h
      obtain ⟨ho, hb⟩ := h
      subst ho
      subst hb
      exact ⟨h1, h2, h3, h4⟩
    · exact ih _ _ _ _ h5 h

theorem mem_offsets_decomp :
    ∀ (l : List ABlock) (off o : Nat) (b : ABlock), (o, b) ∈ offsets l off →
      ∃ l₁ l₂, l = l₁ ++ b :: l₂ ∧ o = off + sizeSum l₁ := by
  intro l
  induction l with
  | nil => intro off o b h; simp [offsets] at h
  | cons hd t ih =>
    intro off o b h
    rw [offsets_cons, List.mem_cons] at h
    rcases h with h | h
    · simp only [Prod.mk.injEq] at h
      obtain ⟨ho, hb⟩ := h
      subst ho
      subst hb
      exact ⟨[], t, rfl, by simp [sizeSum]⟩
    · obtain ⟨l₁, l₂, hl, ho⟩ := ih _ _ _ h
      refine ⟨hd :: l₁, l₂, by rw [hl]; rfl, ?_⟩
      simp only [sizeSum_cons]
      omega

/-- The block traversal of the arena agrees with the offset-annotated
abstract block list whenever the bytes lay the list out. -/
theorem blocksF_layout {a : Arena} :
    ∀ (fuel : Nat) (l : List ABlock) (off : Nat),
      layoutSeg a l off BYTE_COUNT → l.length < fuel →
      blocksF fuel a off = offsets l off := by
  intro fuel
  induction fuel with
  | zero => intro l off _ hlen; omega
  | succ f ih =>
    intro l off hlay hlen
    cases l with
    | nil =>
      simp only [layoutSeg] at hlay
      rw [blocksF, if_neg (by omega)]
      rfl
    | cons b t =>
      simp only [layoutSeg] at hlay
      obtain ⟨h1, h2, h3, h4, h5⟩ := hlay
      have hsum := layoutSeg_sum t _ _ h5
      rw [blocksF, if_pos (by omega), offsets_cons, h1, h2]
      rw [show off + (b.2 + CONTROL_FIELDS_SIZE) = off + b.2 + 4 from by
        simp only [CONTROL_FIELDS_SIZE]; omega]
      rw [ih t _ h5 (by simp only [List.length_cons] at hlen; omega)]

theorem offsets_map_sum :
    ∀ (l : List ABlock) (off : Nat),
      (((offsets l off).map fun b => b.2.2 + 4).sum) = sizeSum l := by
  intro l
  induction l with
  | nil => intro off; simp [offsets, sizeSum]
  | cons b t ih =>
    intro off
    simp only [offsets_cons, List.map_cons, List.sum_cons, ih, sizeSum_cons]

theorem upd_read_eq (a : Arena) (i v j : Nat) (h : j = i) : upd a i v j = v % 256 := by
  simp [upd, h]

/-- The right-coalesce loop absorbs exactly the maximal run of FREE
blocks laid out immediately after the current block and stops at the
first block whose status is not FREE. -/
theorem rightLoop_layout {a : Arena} :
    ∀ (fuel : Nat) (frees : List ABlock) (s q : Nat) (rest : List ABlock) (bp t : Nat),
      layoutSeg a (frees ++ (s, q) :: rest) (bp + t + 4) BYTE_COUNT →
      (∀ b ∈ frees, b.1 = FREE) → s ≠ FREE → frees.length < fuel →
      rightLoop fuel a bp t = t + sizeSum frees := by
  intro fuel
  induction fuel with
  | zero => intro frees s q rest bp t _ _ _ hlen; omega
  | succ f ih =>
    intro frees s q rest bp t hlay hfree hs hlen
    cases frees with
    | nil =>
      simp only [List.nil_append, layoutSeg] at hlay
      rw [rightLoop, if_neg]
      · simp [sizeSum]
      · intro hc
        exact hs (hlay.1.symm.trans hc.2)
    | cons b ft =>
      simp only [List.cons_append, layoutSeg] at hlay
      obtain ⟨h1, h2, h3, h4, h5⟩ := hlay
      have hb : b.1 = FREE := hfree b (List.mem_cons_self b ft)
      have hsum := layoutSeg_sum _ _ _ h5
      rw [rightLoop, if_pos ⟨by omega, by rw [h1]; exact hb⟩]
      rw [show bp + 5 + t = bp + t + 4 + 1 from by omega, h2]
      have harg : bp + (b.2 + t + 4) + 4 = bp + t + 4 + b.2 + 4 := by omega
      have hrec := ih ft s q rest bp (b.2 + t + 4) (by rw [harg]; exact h5)
        (fun x hx => hfree x (List.mem_cons_of_mem b hx)) hs
        (by simp only [List.length_cons] at hlen; omega)
      rw [hrec, sizeSum_cons]
      omega

theorem dropWhile_head_false {α : Type} (p : α → Bool) :
    ∀ (l : List α) (b : α) (bs : List α), l.dropWhile p = b :: bs → p b = false := by
  intro l
  induction l with
  | nil => intro b bs h; cases h
  | cons x xs ih =>
    intro b bs h
    by_cases hp : p x
    · rw [List.dropWhile_cons_of_pos hp] at h
      exact ih _ _ h
    · rw [List.dropWhile_cons_of_neg hp] at h
      cases h
      simpa using hp

theorem nodup_get_not_mem_eraseIdx {α : Type} :
    ∀ (l : List α) (i : Nat) (hi : i < l.length), l.Nodup →
      l.get ⟨i, hi⟩ ∉ l.eraseIdx i := by
  intro l
  induction l with
  | nil => intro i hi; simp at hi
  | cons x xs ih =>
    intro i hi hnd
    rw [List.nodup_cons] at hnd
    cases i with
    | zero => simpa using hnd.1
    | succ j =>
      simp only [List.eraseIdx_cons_succ, List.get_cons_succ, List.mem_cons]
      rintro (h | h)
      · exact hnd.1 (h ▸ List.get_mem xs j _)
      · exact ih j (by simpa using hi) hnd.2 h

theorem mem_of_mem_eraseIdx {α : Type} :
    ∀ (l : List α) (i : Nat) (x : α), x ∈ l.eraseIdx i → x ∈ l := by
  intro l i x h
  exact (List.eraseIdx_sublist l i).mem h

theorem nodup_eraseIdx {α : Type} (l : List α) (i : Nat) (h : l.Nodup) :
    (l.eraseIdx i).Nodup :=
  (List.eraseIdx_sublist l i).nodup h

/-- Refinement of the allocation loop over an abstract block layout:
the loop either fails, or finds a free block of sufficient payload,
replaces it by the consumed block or by the shrunk block plus a new
free block, and leaves every byte before the found block and from the
end of the found block onwards unchanged. -/
theorem allocLoop_layout {a : Arena} :
    ∀ (fuel : Nat) (l : List ABlock) (off req : Nat),
      layoutSeg a l off BYTE_COUNT → l.length < fuel → req ≤ 252 →
      allocLoop req fuel a off = none ∨
      ∃ (pre : List ABlock) (p : Nat) (post : List ABlock) (newL : List ABlock) (a2 : Arena),
        l = pre ++ (FREE, p) :: post ∧
        req ≤ p ∧
        allocLoop req fuel a off = some (off + sizeSum pre + HEADER_SIZE, a2) ∧
        ((p - req < MIN_BLOCK_SIZE ∧ newL = [(ALLOCATED, p)]) ∨
         (MIN_BLOCK_SIZE ≤ p - req ∧ newL = [(ALLOCATED, req), (FREE, p - req - 4)])) ∧
        layoutSeg a2 (pre ++ (newL ++ post)) off BYTE_COUNT ∧
        (∀ i, i < off + sizeSum pre → a2 i = a i) ∧
        (∀ i, off + sizeSum pre + p + 4 ≤ i → a2 i = a i) := by
  intro fuel
  induction fuel with
  | zero => intro l off req _ hlen _; omega
  | succ f ih =>
    intro l off req hlay hlen hreq
    cases l with
    | nil =>
      simp only [layoutSeg] at hlay
      exact Or.inl (allocLoop_stop f a off req (by omega))
    | cons b t =>
      obtain ⟨s0, p0⟩ := b
      simp only [layoutSeg] at hlay
      obtain ⟨h1, h2, h3, h4, h5⟩ := hlay
      have hsum := layoutSeg_sum t _ _ h5
      simp only [BYTE_COUNT] at hsum
      have hoff : off < BYTE_COUNT := by simp only [BYTE_COUNT]; omega
      by_cases hfit : s0 = FREE ∧ req ≤ p0
      · obtain ⟨hfit1, hfit2⟩ := hfit
        subst hfit1
        have hguard : a off = FREE ∧ req ≤ a (off + 1) :=
          ⟨by rw [h1], by rw [h2]; exact hfit2⟩
        by_cases hsmall : a (off + 1) - req < MIN_BLOCK_SIZE
        · -- consume the block whole
          right
          have hps : p0 - req < MIN_BLOCK_SIZE := by rw [h2] at hsmall; exact hsmall
          refine ⟨[], p0, t, [(ALLOCATED, p0)], consumeArena a off, by simp, hfit2,
            allocLoop_found_consume f a off req hoff hguard hsmall,
            Or.inl ⟨hps, rfl⟩, ?_, ?_, ?_⟩
          · simp only [List.nil_append, List.cons_append, layoutSeg]
            refine ⟨?_, ?_, ?_, ?_, ?_⟩
            · simp (disch := omega) only [consumeArena, h2, upd_read_eq, upd_read_ne,
                ALLOCATED, Nat.mod_eq_of_lt]
            · simp (disch := omega) only [consumeArena, h2, upd_read_eq, upd_read_ne]
            · simp (disch := omega) only [consumeArena, h2, upd_read_eq, upd_read_ne]
              exact h3
            · simp (disch := omega) only [consumeArena, h2, upd_read_eq, upd_read_ne,
                ALLOCATED, Nat.mod_eq_of_lt]
            · refine layoutSeg_frame t _ _ h5 (fun i hi1 hi2 => ?_)
              simp (disch := omega) only [consumeArena, h2, upd_read_eq, upd_read_ne]
          · intro i hi
            simp only [sizeSum] at hi
            simp (disch := omega) only [consumeArena, h2, upd_read_eq, upd_read_ne]
          · intro i hi
            simp only [sizeSum] at hi
            simp (disch := omega) only [consumeArena, h2, upd_read_eq, upd_read_ne]
        · -- split the block
          right
          have hps : MIN_BLOCK_SIZE ≤ p0 - req := by rw [h2] at hsmall; omega
          simp only [MIN_BLOCK_SIZE] at hps
          refine ⟨[], p0, t, [(ALLOCATED, req), (FREE, p0 - req - 4)], splitArena a off req,
            by simp, hfit2,
            allocLoop_found_split f a off req hoff hguard hsmall,
            Or.inr ⟨by simpa only [MIN_BLOCK_SIZE] using hps, rfl⟩, ?_, ?_, ?_⟩
          · simp only [List.nil_append, List.cons_append, layoutSeg]
            refine ⟨?_, ?_, ?_, ?_, ?_, ?_, ?_, ?_, ?_⟩
            · simp (disch := omega) only [splitArena, h2, upd_read_eq, upd_read_ne,
                ALLOCATED, CONTROL_FIELDS_SIZE, Nat.mod_eq_of_lt]
            · simp (disch := omega) only [splitArena, h2, upd_read_eq, upd_read_ne,
                ALLOCATED, CONTROL_FIELDS_SIZE, Nat.mod_eq_of_lt]
            · simp (disch := omega) only [splitArena, h2, upd_read_eq, upd_read_ne,
                ALLOCATED, CONTROL_FIELDS_SIZE, Nat.mod_eq_of_lt]
            · simp (disch := omega) only [splitArena, h2, upd_read_eq, upd_read_ne,
                ALLOCATED, CONTROL_FIELDS_SIZE, Nat.mod_eq_of_lt]
            · simp (disch := omega) only [splitArena, h2, upd_read_eq, upd_read_ne,
                FREE, ALLOCATED, CONTROL_FIELDS_SIZE, Nat.mod_eq_of_lt]
            · simp (disch := omega) only [splitArena, h2, upd_read_eq, upd_read_ne,
                CONTROL_FIELDS_SIZE, Nat.mod_eq_of_lt]
            · simp (disch := omega) only [splitArena, h2, upd_read_eq, upd_read_ne,
                CONTROL_FIELDS_SIZE, Nat.mod_eq_of_lt]
            · simp (disch := omega) only [splitArena, h2, upd_read_eq, upd_read_ne,
                CONTROL_FIELDS_SIZE, Nat.mod_eq_of_lt]
              rw [show off + req + 4 + (p0 - req - 4) + 3 = off + p0 + 3 from by omega, h4]
            · rw [show off + req + 4 + (p0 - req - 4) + 4 = off + p0 + 4 from by omega]
              refine layoutSeg_frame t _ _ h5 (fun i hi1 hi2 => ?_)
              simp (disch := omega) only [splitArena, h2, upd_read_eq, upd_read_ne,
                CONTROL_FIELDS_SIZE]
          · intro i hi
            simp only [sizeSum] at hi
            simp (disch := omega) only [splitArena, h2, upd_read_eq, upd_read_ne,
              CONTROL_FIELDS_SIZE]
          · intro i hi
            simp only [sizeSum] at hi
            simp (disch := omega) only [splitArena, h2, upd_read_eq, upd_read_ne,
              CONTROL_FIELDS_SIZE]
      · -- skip this block
        have hguard : ¬ (a off = FREE ∧ req ≤ a (off + 1)) := by
          intro hc
          exact hfit ⟨by rw [← h1]; exact hc.1, by rw [← h2]; exact hc.2⟩
        have harg : off + (a (off + 1) + CONTROL_FIELDS_SIZE) = off + p0 + 4 := by
          rw [h2]
          simp only [CONTROL_FIELDS_SIZE]
          omega
        rw [allocLoop_skip f a off req hoff hguard, harg]
        rcases ih t (off + p0 + 4) req h5 (by simp only [List.length_cons] at hlen; omega)
            hreq with hnone | ⟨pre, p, post, newL, a2, hl, hp, heq, hbr, hlay2, hfr1, hfr2⟩
        · exact Or.inl hnone
        · right
          refine ⟨(s0, p0) :: pre, p, post, newL, a2, by rw [List.cons_append, ← hl], hp,
            ?_, hbr, ?_, ?_, ?_⟩
          · rw [show off + sizeSum ((s0, p0) :: pre) + HEADER_SIZE
                = off + p0 + 4 + sizeSum pre + HEADER_SIZE from by
              simp only [sizeSum_cons]; omega]
            exact heq
          · simp only [List.cons_append, layoutSeg]
            have hfrb : ∀ i, i < off + p0 + 4 → a2 i = a i := fun i hi => hfr1 i (by omega)
            refine ⟨?_, ?_, ?_, ?_, hlay2⟩
            · rw [hfrb off (by omega)]; exact h1
            · rw [hfrb (off + 1) (by omega)]; exact h2
            · rw [hfrb (off + p0 + 2) (by omega)]; exact h3
            · rw [hfrb (off + p0 + 3) (by omega)]; exact h4
          · intro i hi
            simp only [sizeSum_cons] at hi
            exact hfr1 i (by omega)
          · intro i hi
            simp only [sizeSum_cons] at hi
            exact hfr2 i (by omega)

/-- Whenever the allocation loop succeeds with a request at most 252,
the payload size stored at the returned block is at least the request
and at most the request plus 5. -/
theorem allocLoop_fit : ∀ (fuel : Nat) (a : Arena) (off req h : Nat) (a2 : Arena),
    req ≤ 252 → allocLoop req fuel a off = some (h, a2) →
    req ≤ a2 (h - 1) ∧ a2 (h - 1) ≤ req + 5 := by
  intro fuel
  induction fuel with
  | zero => intro a off req h a2 _ heq; simp [allocLoop] at heq
  | succ f ih =>
    intro a off req h a2 hreq heq
    by_cases hoff : off < BYTE_COUNT
    · by_cases hfree : a off = FREE ∧ req ≤ a (off + 1)
      · obtain ⟨hf1, hf2⟩ := hfree
        by_cases hsmall : a (off + 1) - req < MIN_BLOCK_SIZE
        · rw [allocLoop_found_consume f a off req hoff ⟨hf1, hf2⟩ hsmall,
            Option.some.injEq, Prod.mk.injEq] at heq
          obtain ⟨hh, ha⟩ := heq
          subst hh
          subst ha
          have hidx : off + HEADER_SIZE - 1 = off + 1 := by simp [HEADER_SIZE]
          rw [hidx]
          have hval : consumeArena a off (off + 1) = a (off + 1) := by
            simp (disch := omega) only [consumeArena, upd_read_self, upd_read_ne]
          rw [hval]
          simp only [MIN_BLOCK_SIZE] at hsmall
          omega
        · rw [allocLoop_found_split f a off req hoff ⟨hf1, hf2⟩ hsmall,
            Option.some.injEq, Prod.mk.injEq] at heq
          obtain ⟨hh, ha⟩ := heq
          subst hh
          subst ha
          have hidx : off + HEADER_SIZE - 1 = off + 1 := by simp [HEADER_SIZE]
          rw [hidx]
          have hval : splitArena a off req (off + 1) = req := by
            simp (disch := omega) only [splitArena, upd_read_self, upd_read_ne,
              Nat.mod_eq_of_lt]
          rw [hval]
          omega
      · rw [allocLoop_skip f a off req hoff hfree] at heq
        exact ih _ _ _ _ _ hreq heq
    · rw [allocLoop_stop f a off req hoff] at heq
      cases heq

/-- Whenever the allocation loop succeeds, only the bytes of the found
block (from its offset to its old trailer) change. -/
theorem allocLoop_frame : ∀ (fuel : Nat) (a : Arena) (off req h : Nat) (a2 : Arena),
    allocLoop req fuel a off = some (h, a2) →
    ∀ i, i < h - HEADER_SIZE ∨ h - HEADER_SIZE + a (h - 1) + CONTROL_FIELDS_SIZE ≤ i →
      a2 i = a i := by
  intro fuel
  induction fuel with
  | zero => intro a off req h a2 heq; simp [allocLoop] at heq
  | succ f ih =>
    intro a off req h a2 heq
    by_cases hoff : off < BYTE_COUNT
    · by_cases hfree : a off = FREE ∧ req ≤ a (off + 1)
      · obtain ⟨hf1, hf2⟩ := hfree
        by_cases hsmall : a (off + 1) - req < MIN_BLOCK_SIZE
        · rw [allocLoop_found_consume f a off req hoff ⟨hf1, hf2⟩ hsmall,
            Option.some.injEq, Prod.mk.injEq] at heq
          obtain ⟨hh, ha⟩ := heq
          subst hh
          subst ha
          intro i hi
          rw [show off + HEADER_SIZE - HEADER_SIZE = off from by omega,
            show off + HEADER_SIZE - 1 = off + 1 from by simp [HEADER_SIZE]] at hi
          simp only [CONTROL_FIELDS_SIZE] at hi
          simp (disch := omega) only [consumeArena, upd_read_ne]
        · rw [allocLoop_found_split f a off req hoff ⟨hf1, hf2⟩ hsmall,
            Option.some.injEq, Prod.mk.injEq] at heq
          obtain ⟨hh, ha⟩ := heq
          subst hh
          subst ha
          intro i hi
          rw [show off + HEADER_SIZE - HEADER_SIZE = off from by omega,
            show off + HEADER_SIZE - 1 = off + 1 from by simp [HEADER_SIZE]] at hi
          simp only [CONTROL_FIELDS_SIZE] at hi
          simp only [MIN_BLOCK_SIZE] at hsmall
          simp (disch := omega) only [splitArena, upd_read_ne]
      · rw [allocLoop_skip f a off req hoff hfree] at heq
        exact ih _ _ _ _ _ heq
    · rw [allocLoop_stop f a off req hoff] at heq
      cases heq

/-! Preservation of the reachability invariant. -/

theorem layout_length_lt {a : Arena} {L : List ABlock} (h : layoutSeg a L 0 BYTE_COUNT) :
    L.length < BYTE_COUNT := by
  have h1 := layoutSeg_sum L 0 BYTE_COUNT h
  have h2 := sizeSum_ge L
  simp only [BYTE_COUNT] at h1 ⊢
  omega

theorem mem_of_getLast_eq {α : Type} {l : List α} {b : α} (h : l.getLast? = some b) :
    b ∈ l := by
  obtain ⟨hne, heq⟩ := List.mem_getLast?_eq_getLast (l := l) (x := b) (Option.mem_def.mpr h)
  rw [heq]
  exact List.getLast_mem hne

theorem pre_shape {L mid pre : List ABlock} {b : ABlock} {post : List ABlock}
    (hmid : L = sentinel :: mid ++ [sentinel]) (hl : L = pre ++ b :: post)
    (hprene : pre ≠ []) : ∃ pre', pre = sentinel :: pre' := by
  cases pre with
  | nil => exact absurd rfl hprene
  | cons p0 pre' =>
    have h := hmid.symm.trans hl
    rw [List.cons_append] at h
    injection h with h1 h2
    exact ⟨pre', by rw [← h1]⟩

theorem getLast_of_decomp {L mid pre : List ABlock} {b : ABlock} {post : List ABlock}
    (hmid : L = sentinel :: mid ++ [sentinel]) (hl : L = pre ++ b :: post) :
    (post = [] ∧ b = sentinel) ∨ (post ≠ [] ∧ post.getLast? = some sentinel) := by
  have hL : L.getLast? = some sentinel := by
    rw [hmid, List.getLast?_append_cons]
    rfl
  rw [hl, List.getLast?_append_cons] at hL
  cases post with
  | nil =>
    left
    refine ⟨rfl, ?_⟩
    simpa using hL
  | cons c cs =>
    right
    refine ⟨by simp, ?_⟩
    rw [List.getLast?_cons_cons] at hL
    exact hL

/-- A successful allocation preserves the invariant. -/
theorem inv_step_alloc (s : AState) (req : Nat) (hInv : Inv s) :
    Inv (step s (Op.alloc req)) := by
  obtain ⟨L, hlay, ⟨mid, hmid⟩, hnd, hh⟩ := hInv
  cases halloc : simple_allocate s.arena req with
  | none =>
    have hstep : step s (Op.alloc req) = s := by simp [step, halloc]
    rw [hstep]
    exact ⟨L, hlay, ⟨mid, hmid⟩, hnd, hh⟩
  | some pa =>
    have hreq : req ≤ 252 := by
      by_contra hgt
      have hx : simple_allocate s.arena req = none := by
        unfold simple_allocate
        rw [if_pos (by simp only [BYTE_COUNT, CONTROL_FIELDS_SIZE]; omega)]
      rw [hx] at halloc
      cases halloc
    have halloc' : allocLoop req BYTE_COUNT s.arena 0 = some pa := by
      unfold simple_allocate at halloc
      rw [if_neg (by simp only [BYTE_COUNT, CONTROL_FIELDS_SIZE]; omega)] at halloc
      exact halloc
    rcases allocLoop_layout BYTE_COUNT L 0 req hlay (layout_length_lt hlay) hreq with
      hnone | ⟨pre, p, post, newL, a2, hl, hp, heq, hbr, hlay2, hfr1, hfr2⟩
    · rw [hnone] at halloc'
      cases halloc'
    · rw [heq] at halloc'
      have hpa : pa = (0 + sizeSum pre + HEADER_SIZE, a2) := (Option.some.inj halloc').symm
      subst hpa
      have hstep : step s (Op.alloc req)
          = ⟨a2, (0 + sizeSum pre + HEADER_SIZE) :: s.handles⟩ := by
        simp [step, halloc]
      rw [hstep]
      simp only [Nat.zero_add] at hlay2 hfr1 hfr2 ⊢
      have hmemF : (sizeSum pre, ((FREE, p) : ABlock)) ∈ offsets L 0 := by
        rw [hl, offsets_append, offsets_cons, Nat.zero_add]
        exact List.mem_append_right _ (List.mem_cons_self _ _)
      have hbF := layout_offsets_bytes L 0 BYTE_COUNT (sizeSum pre) (FREE, p) hlay hmemF
      have hFne : s.arena (sizeSum pre) = FREE := by simpa using hbF.1
      have ha0 : s.arena 0 = ALLOCATED := by
        have hm : (0, sentinel) ∈ offsets L 0 := by
          rw [hmid, List.cons_append, offsets_cons]
          exact List.mem_cons_self _ _
        have := (layout_offsets_bytes L 0 BYTE_COUNT 0 sentinel hlay hm).1
        simpa [sentinel] using this
      have hsumL : sizeSum L = 256 := by
        have := layoutSeg_sum L 0 BYTE_COUNT hlay
        simp only [BYTE_COUNT] at this
        omega
      have ha252 : s.arena 252 = ALLOCATED := by
        have hdecomp : L = (sentinel :: mid) ++ sentinel :: [] := hmid
        have h4s : sizeSum (sentinel :: ([] : List ABlock)) = 4 := rfl
        have hsz : sizeSum (sentinel :: mid) = 252 := by
          have h1 : sizeSum L = sizeSum (sentinel :: mid) + sizeSum (sentinel :: []) := by
            rw [hdecomp, sizeSum_append]
          omega
        have hm : (252, sentinel) ∈ offsets L 0 := by
          rw [hdecomp, offsets_append]
          refine List.mem_append_right _ ?_
          rw [Nat.zero_add, hsz, offsets_cons]
          exact List.mem_cons_self _ _
        have := (layout_offsets_bytes L 0 BYTE_COUNT 252 sentinel hlay hm).1
        simpa [sentinel] using this
      have hoF0 : sizeSum pre ≠ 0 := by
        intro h0
        rw [h0, ha0] at hFne
        simp [ALLOCATED, FREE] at hFne
      have hoF252 : sizeSum pre ≠ 252 := by
        intro h0
        rw [h0, ha252] at hFne
        simp [ALLOCATED, FREE] at hFne
      have hprene : pre ≠ [] := by
        intro h0
        rw [h0] at hl
        rw [hmid] at hl
        simp [sentinel, ALLOCATED, FREE] at hl
      obtain ⟨pre', hpre'⟩ := pre_shape hmid hl hprene
      rcases getLast_of_decomp hmid hl with ⟨hpost0, hbsent⟩ | ⟨hpostne, hpostlast⟩
      · exfalso
        simp [sentinel, FREE, ALLOCATED] at hbsent
      have hpostdec : post.dropLast ++ [sentinel] = post :=
        List.dropLast_append_getLast? sentinel (Option.mem_def.mpr hpostlast)
      obtain ⟨nb, ntail, hnewL, hnb1, hszNew⟩ :
          ∃ nb ntail, newL = nb :: ntail ∧ nb.1 = ALLOCATED ∧ sizeSum newL = p + 4 := by
        rcases hbr with ⟨hbr1, hbr2⟩ | ⟨hbr1, hbr2⟩
        · exact ⟨(ALLOCATED, p), [], hbr2, rfl, by rw [hbr2]; simp [sizeSum]⟩
        · refine ⟨(ALLOCATED, req), [(FREE, p - req - 4)], hbr2, rfl, ?_⟩
          rw [hbr2]
          simp only [sizeSum_cons, sizeSum]
          simp only [MIN_BLOCK_SIZE] at hbr1
          omega
      refine ⟨pre ++ (newL ++ post), hlay2, ?_, ?_, ?_⟩
      · refine ⟨pre' ++ (newL ++ post.dropLast), ?_⟩
        conv_lhs => rw [hpre', ← hpostdec]
        simp [List.cons_append, List.append_assoc]
      · rw [List.nodup_cons]
        refine ⟨?_, hnd⟩
        intro hmem
        obtain ⟨hne0, hne252, q, hqmem⟩ := hh _ hmem
        have hq2 : sizeSum pre + HEADER_SIZE - 2 = sizeSum pre := by
          simp only [HEADER_SIZE]
          omega
        rw [hq2] at hqmem
        have hbA := (layout_offsets_bytes L 0 BYTE_COUNT _ _ hlay hqmem).1
        rw [hFne] at hbA
        simp [ALLOCATED, FREE] at hbA
      · intro u hu
        rcases List.mem_cons.mp hu with hunew | huold
        · subst hunew
          have hq2 : sizeSum pre + HEADER_SIZE - 2 = sizeSum pre := by
            simp only [HEADER_SIZE]
            omega
          rw [hq2]
          have hnbeq : ((ALLOCATED, nb.2) : ABlock) = nb := by
            rw [← hnb1]
          refine ⟨hoF0, hoF252, nb.2, ?_⟩
          rw [hnbeq, offsets_append]
          refine List.mem_append_right _ ?_
          rw [hnewL, List.cons_append, offsets_cons, Nat.zero_add]
          exact List.mem_cons_self _ _
        · obtain ⟨hne0, hne252, q, hqmem⟩ := hh u huold
          refine ⟨hne0, hne252, q, ?_⟩
          rw [hl, offsets_append, offsets_cons, Nat.zero_add] at hqmem
          dsimp only at hqmem
          rw [offsets_append]
          rcases List.mem_append.mp hqmem with hin | hin
          · exact List.mem_append.mpr (Or.inl hin)
          · rcases List.mem_cons.mp hin with heq2 | hin2
            · exfalso
              simp [FREE, ALLOCATED, Prod.ext_iff] at heq2
            · refine List.mem_append.mpr (Or.inr ?_)
              rw [offsets_append]
              refine List.mem_append.mpr (Or.inr ?_)
              rw [show 0 + sizeSum pre + sizeSum newL = sizeSum pre + p + 4 from by
                rw [hszNew]; omega]
              exact hin2

/-- A release of a valid outstanding handle preserves the invariant. -/
theorem inv_step_release (s : AState) (i : Nat) (hInv : Inv s) :
    Inv (step s (Op.release i)) := by
  obtain ⟨L, hlay, ⟨mid, hmid⟩, hnd, hh⟩ := hInv
  by_cases hi : i < s.handles.length
  case neg =>
    have hstep : step s (Op.release i) = s := by simp [step, hi]
    rw [hstep]
    exact ⟨L, hlay, ⟨mid, hmid⟩, hnd, hh⟩
  case pos =>
    have hstep : step s (Op.release i)
        = ⟨simple_release s.arena (s.handles.get ⟨i, hi⟩), s.handles.eraseIdx i⟩ := by
      simp [step, hi]
    rw [hstep]
    obtain ⟨u, hu⟩ : ∃ u, s.handles.get ⟨i, hi⟩ = u := ⟨_, rfl⟩
    rw [hu]
    have humem : u ∈ s.handles := hu ▸ List.get_mem s.handles i hi
    have hunotin : u ∉ s.handles.eraseIdx i :=
      hu ▸ nodup_get_not_mem_eraseIdx s.handles i hi hnd
    obtain ⟨hne0, hne252, q, hqmem⟩ := hh u humem
    obtain ⟨pre, post, hl, ho⟩ := mem_offsets_decomp L 0 (u - 2) (ALLOCATED, q) hqmem
    rw [Nat.zero_add] at ho
    have hsumL : sizeSum L = 256 := by
      have := layoutSeg_sum L 0 BYTE_COUNT hlay
      simp only [BYTE_COUNT] at this
      omega
    have hlay' := hlay
    rw [hl] at hlay'
    obtain ⟨hlayPre, hlayRest⟩ := layoutSeg_append_inv pre _ 0 BYTE_COUNT hlay'
    rw [Nat.zero_add] at hlayPre hlayRest
    simp only [layoutSeg] at hlayRest
    obtain ⟨hb1, hb2, hb3, hb4, hlayPost⟩ := hlayRest
    have hprene : pre ≠ [] := by
      intro h0
      apply hne0
      rw [h0] at ho
      simpa [sizeSum] using ho
    obtain ⟨pre', hpre'⟩ := pre_shape hmid hl hprene
    have hszpre : 4 ≤ sizeSum pre := by
      rw [hpre']
      simp only [sizeSum_cons, sentinel]
      omega
    rcases getLast_of_decomp hmid hl with ⟨hpost0, hbsent⟩ | ⟨hpostne, hpostlast⟩
    · exfalso
      apply hne252
      have hq0 : q = 0 := by
        have := congrArg Prod.snd hbsent
        simpa [sentinel] using this
      have hx : sizeSum L = sizeSum pre + 4 := by
        rw [hl, hpost0, sizeSum_append]
        simp [sizeSum, hq0]
      omega
    · have hpostdec : post.dropLast ++ [sentinel] = post :=
        List.dropLast_append_getLast? sentinel (Option.mem_def.mpr hpostlast)
      obtain ⟨frees, dw, hfrees, hdw, hfd⟩ :
          ∃ frees dw, frees = post.takeWhile (fun b => b.1 == FREE) ∧
            dw = post.dropWhile (fun b => b.1 == FREE) ∧ frees ++ dw = post :=
        ⟨_, _, rfl, rfl, List.takeWhile_append_dropWhile _ _⟩
      have hfreesF : ∀ b ∈ frees, b.1 = FREE := by
        intro b hb
        rw [hfrees] at hb
        have := List.mem_takeWhile_imp hb
        simpa using this
      have hdwne : dw ≠ [] := by
        intro h0
        have hfp : frees = post := by rw [← hfd, h0, List.append_nil]
        have hsmem : sentinel ∈ frees := by
          rw [hfp]
          exact mem_of_getLast_eq hpostlast
        have := hfreesF sentinel hsmem
        simp [sentinel, ALLOCATED, FREE] at this
      obtain ⟨d0, dw', hdwcons⟩ : ∃ d0 dw', dw = d0 :: dw' := by
        cases hdwx : dw with
        | nil => exact absurd hdwx hdwne
        | cons x xs => exact ⟨x, xs, rfl⟩
      have hd0 : d0.1 ≠ FREE := by
        have := dropWhile_head_false (fun b => b.1 == FREE) post d0 dw'
          (hdw.symm.trans hdwcons)
        simpa using this
      have hdwlast : dw.getLast? = some sentinel := by
        rw [← List.getLast?_append_of_ne_nil frees hdwne, hfd]
        exact hpostlast
      have hdwdec : dw.dropLast ++ [sentinel] = dw :=
        List.dropLast_append_getLast? sentinel (Option.mem_def.mpr hdwlast)
      have hlayPost' := hlayPost
      rw [← hfd] at hlayPost'
      obtain ⟨hlayFrees, hlayDw⟩ := layoutSeg_append_inv frees dw _ BYTE_COUNT hlayPost'
      have hszdw : 4 ≤ sizeSum dw := by
        rw [hdwcons]
        simp only [sizeSum_cons]
        omega
      have hsum2 : sizeSum pre + q + 4 + sizeSum frees + sizeSum dw = 256 := by
        have e1 := hsumL
        rw [hl, sizeSum_append, sizeSum_cons, ← hfd, sizeSum_append] at e1
        dsimp only at e1
        omega
      have hTlen : frees.length < BYTE_COUNT := by
        have h1 : frees.length ≤ post.length := by
          rw [← hfd]
          simp
        have hL := layout_length_lt hlay
        rw [hl] at hL
        simp only [List.length_append, List.length_cons] at hL
        simp only [BYTE_COUNT] at *
        omega
      -- normalise the released arena
      have hrel := simple_release_eq s.arena u
      rw [show u - HEADER_SIZE = sizeSum pre from by simp only [HEADER_SIZE]; omega] at hrel
      rw [hb2] at hrel
      have hlayPost2 : layoutSeg
          (upd (upd s.arena (sizeSum pre) FREE) (sizeSum pre + q + 3) FREE)
          (frees ++ (d0.1, d0.2) :: dw') (sizeSum pre + q + 4) BYTE_COUNT := by
        have hx : frees ++ (d0.1, d0.2) :: dw' = frees ++ dw := by
          rw [Prod.mk.eta, ← hdwcons]
        rw [hx, hfd]
        refine layoutSeg_frame post _ _ hlayPost (fun j h1 h2 => ?_)
        simp (disch := omega) only [upd_read_ne]
      have hT : rightLoop BYTE_COUNT
          (upd (upd s.arena (sizeSum pre) FREE) (sizeSum pre + q + 3) FREE)
          (sizeSum pre) q = q + sizeSum frees :=
        rightLoop_layout BYTE_COUNT frees d0.1 d0.2 dw' (sizeSum pre) q hlayPost2
          hfreesF hd0 hTlen
      rw [hT] at hrel
      rw [Nat.mod_eq_of_lt (show q + sizeSum frees < 256 from by omega)] at hrel
      rw [hrel]
      refine ⟨pre ++ (FREE, q + sizeSum frees) :: dw, ?_, ?_,
        nodup_eraseIdx _ _ hnd, ?_⟩
      · -- layout of the new arena
        refine layoutSeg_append_of pre _ 0 (sizeSum pre) BYTE_COUNT ?_ ?_
        · refine layoutSeg_frame pre _ _ hlayPre (fun j h1 h2 => ?_)
          simp (disch := omega) only [upd_read_eq, upd_read_ne]
        · simp only [layoutSeg]
          refine ⟨?_, ?_, ?_, ?_, ?_⟩
          · simp (disch := omega) only [upd_read_eq, upd_read_ne, FREE, Nat.mod_eq_of_lt]
          · simp (disch := omega) only [upd_read_eq, upd_read_ne, Nat.mod_eq_of_lt]
          · simp (disch := omega) only [upd_read_eq, upd_read_ne, Nat.mod_eq_of_lt]
          · by_cases hfe : frees = []
            · subst hfe
              simp (disch := omega) only [sizeSum, Nat.add_zero, upd_read_eq, upd_read_ne,
                FREE, Nat.mod_eq_of_lt]
            · have hszfr : 4 ≤ sizeSum frees := by
                cases hfx : frees with
                | nil => exact absurd hfx hfe
                | cons y ys =>
                  simp only [sizeSum_cons]
                  omega
              have hfl : frees.getLast? = some (frees.getLast hfe) :=
                List.getLast?_eq_getLast_of_ne_nil hfe
              have hflF : (frees.getLast hfe).1 = FREE :=
                hfreesF _ (mem_of_getLast_eq hfl)
              have hbytes := layoutSeg_last_bytes frees _ _ _ hlayFrees hfl
              simp (disch := omega) only [upd_read_eq, upd_read_ne]
              rw [show sizeSum pre + (q + sizeSum frees) + 3
                  = sizeSum pre + q + 4 + sizeSum frees - 1 from by omega]
              rw [hbytes.2, hflF]
          · have hlayDw' : layoutSeg s.arena dw
                (sizeSum pre + (q + sizeSum frees) + 4) BYTE_COUNT := by
              rw [show sizeSum pre + (q + sizeSum frees) + 4
                  = sizeSum pre + q + 4 + sizeSum frees from by omega]
              exact hlayDw
            refine layoutSeg_frame dw _ _ hlayDw' (fun j h1 h2 => ?_)
            simp (disch := omega) only [upd_read_eq, upd_read_ne]
      · -- the two sentinels still bound the arena
        refine ⟨pre' ++ (FREE, q + sizeSum frees) :: dw.dropLast, ?_⟩
        conv_lhs => rw [hpre', ← hdwdec]
        simp [List.cons_append, List.append_assoc]
      · -- the remaining handles still point at allocated non-sentinel blocks
        intro u' hu'
        have hu'old : u' ∈ s.handles := mem_of_mem_eraseIdx _ _ _ hu'
        have hu'ne : u' ≠ u := by
          intro he
          rw [he] at hu'
          exact hunotin hu'
        obtain ⟨h0', h252', q', hqmem'⟩ := hh u' hu'old
        refine ⟨h0', h252', q', ?_⟩
        rw [hl, offsets_append, offsets_cons, Nat.zero_add] at hqmem'
        dsimp only at hqmem'
        rw [offsets_append, offsets_cons, Nat.zero_add]
        dsimp only
        rcases List.mem_append.mp hqmem' with hin | hin
        · exact List.mem_append.mpr (Or.inl hin)
        · rcases List.mem_cons.mp hin with heq2 | hin2
          · exfalso
            apply hu'ne
            have hfst := congrArg Prod.fst heq2
            dsimp only at hfst
            omega
          · rw [← hfd, offsets_append] at hin2
            rcases List.mem_append.mp hin2 with hinf | hind
            · exfalso
              have hmemb := mem_offsets_block _ _ _ _ hinf
              have := hfreesF _ hmemb
              simp [ALLOCATED, FREE] at this
            · refine List.mem_append.mpr (Or.inr ?_)
              refine List.mem_cons.mpr (Or.inr ?_)
              rw [show sizeSum pre + (q + sizeSum frees) + 4
                  = sizeSum pre + q + 4 + sizeSum frees from by omega]
              exact hind

/-- The freshly initialised state satisfies the invariant, with the
abstract layout sentinel, one free block of payload 244, sentinel. -/
theorem inv_init : Inv initState := by
  refine ⟨[sentinel, (FREE, BYTE_COUNT - 12), sentinel], ?_,
    ⟨[(FREE, BYTE_COUNT - 12)], rfl⟩, List.nodup_nil,
    by intro u hu; simp [initState] at hu⟩
  simp only [layoutSeg]
  decide

/-- The invariant holds after any sequence of calls. -/
theorem inv_run (ops : List Op) : Inv (run ops) := by
  have key : ∀ (l : List Op) (s : AState), Inv s → Inv (l.foldl step s) := by
    intro l
    induction l with
    | nil => intro s h; exact h
    | cons op rest ih =>
      intro s h
      cases op with
      | alloc req => exact ih _ (inv_step_alloc s req h)
      | release i => exact ih _ (inv_step_release s i h)
  exact key ops initState inv_init

/-! The claims. -/

/-- C1: the claim states that after any release no two consecutive
non-sentinel blocks are both FREE.  The code violates it: releasing a
block whose left neighbor is free never coalesces to the left, so after
init, two allocations of 12 and the two releases, the arena holds the
adjacent free blocks at offsets 4 (payload 12) and 20 (payload 228). -/
theorem C1_release_leaves_adjacent_free_blocks :
    blocks (run [Op.alloc 12, Op.alloc 12, Op.release 1, Op.release 0]).arena
      = [(0, ALLOCATED, 0), (4, FREE, 12), (20, FREE, 228), (252, ALLOCATED, 0)] ∧
    (run [Op.alloc 12, Op.alloc 12, Op.release 1, Op.release 0]).arena 4 = FREE ∧
    (run [Op.alloc 12, Op.alloc 12, Op.release 1, Op.release 0]).arena 20 = FREE ∧
    4 + (run [Op.alloc 12, Op.alloc 12, Op.release 1, Op.release 0]).arena 5
      + CONTROL_FIELDS_SIZE = 20 := by
  decide

/-- C2: the claim states that a release absorbs a FREE left neighbor.
In the code the left-coalesce guard compares the neighbor pointer
itself against the null pointer, so the left loop never runs at all
(first conjunct), and concretely: before releasing the block at offset
20 its left neighbor's trailer (bytes 18, 19) shows a FREE block of
payload 12, yet after the release the merged block still starts at
offset 20 and the left neighbor at offset 4 was not absorbed. -/
theorem C2_left_free_neighbor_not_absorbed :
    (∀ (fuel : Nat) (a : Arena) (bp t : Nat), leftLoop fuel a bp t = (bp, t)) ∧
    (run [Op.alloc 12, Op.alloc 12, Op.release 1]).arena 18 = 12 ∧
    (run [Op.alloc 12, Op.alloc 12, Op.release 1]).arena 19 = FREE ∧
    blocks (run [Op.alloc 12, Op.alloc 12, Op.release 1]).arena
      = [(0, ALLOCATED, 0), (4, FREE, 12), (20, ALLOCATED, 12),
         (36, FREE, 212), (252, ALLOCATED, 0)] ∧
    blocks (simple_release (run [Op.alloc 12, Op.alloc 12, Op.release 1]).arena 22)
      = [(0, ALLOCATED, 0), (4, FREE, 12), (20, FREE, 228), (252, ALLOCATED, 0)] :=
  ⟨fun fuel a bp t => leftLoop_eq fuel a bp t, by decide⟩

/-- C3: after any sequence of allocations and releases of valid
outstanding handles starting from the initialised arena, every block's
trailer bytes equal its header bytes and the block sizes
(payload plus 4 control bytes) partition the arena exactly: they sum to
the capacity 256 with no gaps or overlap. -/
theorem C3_invariant_preservation (ops : List Op) :
    arenaCheck (run ops).arena = true := by
  obtain ⟨L, hlay, _, _, _⟩ := inv_run ops
  have hblocks : blocks (run ops).arena = offsets L 0 :=
    blocksF_layout BYTE_COUNT L 0 hlay (layout_length_lt hlay)
  unfold arenaCheck headTailOk blockSizeSum
  rw [hblocks, Bool.and_eq_true]
  constructor
  · rw [List.all_eq_true]
    intro b hb
    obtain ⟨o, blk⟩ := b
    have hby := layout_offsets_bytes L 0 BYTE_COUNT o blk hlay hb
    simp only [hby.2.2.1, hby.2.2.2, beq_self_eq_true, Bool.and_self]
  · rw [beq_iff_eq]
    simp only [CONTROL_FIELDS_SIZE]
    rw [offsets_map_sum]
    have := layoutSeg_sum L 0 BYTE_COUNT hlay
    simp only [BYTE_COUNT] at *
    omega

/-- C4: releasing a handle obtained by any successful allocation on the
freshly initialised arena (where no other allocation is outstanding)
restores the initial block structure: one free block of payload 244
between the two sentinels. -/
theorem C4_round_trip (n h : Nat) (a2 : Arena)
    (heq : simple_allocate simple_init n = some (h, a2)) :
    blocks (simple_release a2 h) = blocks simple_init := by
  by_cases hn : n < 253
  · have key : ∀ m, m < 253 → roundTrip m = true := by decide
    have hk := key n hn
    unfold roundTrip at hk
    rw [heq] at hk
    simpa using hk
  · exfalso
    have hnone : simple_allocate simple_init n = none := by
      unfold simple_allocate
      rw [if_pos (by simp only [BYTE_COUNT, CONTROL_FIELDS_SIZE]; omega)]
    rw [hnone] at heq
    cases heq

/-- Witness for C4 at the concrete request 244, which consumes the
whole free block. -/
theorem C4_round_trip_witness :
    blocks (simple_release (consumeArena simple_init 4) 6) = blocks simple_init :=
  C4_round_trip 244 6 (consumeArena simple_init 4) (by rfl)

/-- C6: a request larger than `BYTE_COUNT - CONTROL_FIELDS_SIZE = 252`
fails before any search, and every allocation failure (too large or out
of memory) returns NULL and leaves the whole program state unchanged. -/
theorem C6_failure_leaves_state_unchanged (s : AState) (req : Nat)
    (h : BYTE_COUNT - CONTROL_FIELDS_SIZE < req ∨ simple_allocate s.arena req = none) :
    simple_allocate s.arena req = none ∧ step s (Op.alloc req) = s := by
  have hnone : simple_allocate s.arena req = none := by
    rcases h with h | h
    · unfold simple_allocate
      rw [if_pos h]
    · exact h
  exact ⟨hnone, by simp [step, hnone]⟩

/-- Witness for C6 at the concrete too-large request 253 on the initial
state. -/
theorem C6_failure_leaves_state_unchanged_witness :
    simple_allocate initState.arena 253 = none ∧ step initState (Op.alloc 253) = initState :=
  C6_failure_leaves_state_unchanged initState 253 (Or.inl (by decide))

/-- C7 counterexample: the initialised arena's middle free block does
not have payload `BYTE_COUNT - 2 * CONTROL_FIELDS_SIZE = 248` as the
claim states; its payload is 244. -/
theorem C7_counterexample :
    ¬ (blocks simple_init
        = [(0, ALLOCATED, 0), (4, FREE, BYTE_COUNT - 2 * CONTROL_FIELDS_SIZE),
           (252, ALLOCATED, 0)]) := by
  decide

/-- C7 amended: after initialisation the arena consists of exactly a
zero-payload allocated sentinel at offset 0, one free block of payload
`BYTE_COUNT - 3 * CONTROL_FIELDS_SIZE = 244` at offset 4, and a
zero-payload allocated sentinel at offset 252, each with trailer bytes
matching its header bytes. -/
theorem C7_amended_init_layout :
    blocks simple_init
      = [(0, ALLOCATED, 0), (4, FREE, BYTE_COUNT - 3 * CONTROL_FIELDS_SIZE),
         (252, ALLOCATED, 0)] ∧
    simple_init 2 = 0 ∧ simple_init 3 = ALLOCATED ∧
    simple_init 250 = BYTE_COUNT - 3 * CONTROL_FIELDS_SIZE ∧ simple_init 251 = FREE ∧
    simple_init 254 = 0 ∧ simple_init 255 = ALLOCATED := by
  decide

/-- C9: requests of 245..252 on the initial arena pass the early size
check (which only rejects requests above 252), the full scan runs and
finds nothing, and the resulting out-of-memory failure is the same
value NULL as the size-too-large failure of a request of 253. -/
theorem C9_oom_same_as_too_large (n : Nat) (h1 : 244 < n) (h2 : n ≤ 252) :
    ¬ (BYTE_COUNT - CONTROL_FIELDS_SIZE < n) ∧
    simple_allocate simple_init n = none ∧
    allocLoop n BYTE_COUNT simple_init 0 = none ∧
    simple_allocate simple_init n = simple_allocate simple_init 253 := by
  have key : ∀ m, m < 253 → 244 < m →
      (((simple_allocate simple_init m).isNone
        && (allocLoop m BYTE_COUNT simple_init 0).isNone) = true) := by decide
  have hk := key n (by omega) h1
  simp only [Bool.and_eq_true, Option.isNone_iff_eq_none] at hk
  have h253 : simple_allocate simple_init 253 = none := by
    unfold simple_allocate
    rw [if_pos (by decide)]
  refine ⟨by simp only [BYTE_COUNT, CONTROL_FIELDS_SIZE]; omega, hk.1, hk.2, ?_⟩
  rw [hk.1, h253]

/-- Witness for C9 at the concrete request 245. -/
theorem C9_oom_same_as_too_large_witness :
    ¬ (BYTE_COUNT - CONTROL_FIELDS_SIZE < 245) ∧
    simple_allocate simple_init 245 = none ∧
    allocLoop 245 BYTE_COUNT simple_init 0 = none ∧
    simple_allocate simple_init 245 = simple_allocate simple_init 253 :=
  C9_oom_same_as_too_large 245 (by decide) (by decide)

/-- C10: an allocation of size 0 succeeds whenever the block list holds
any free block, and on the freshly initialised arena it returns the
handle 6 to an allocated block of payload 0 at offset 4 whose trailer
bytes (6 and 7) match its header, followed by a new free block of
payload 240 at offset 8. -/
theorem C10_alloc_zero_splits :
    (∀ a : Arena, ((blocks a).any fun b => b.2.1 == FREE) = true →
      (simple_allocate a 0).isSome = true) ∧
    Option.map (fun pa => (pa.1, pa.2 6, pa.2 7)) (simple_allocate simple_init 0)
      = some (6, 0, ALLOCATED) ∧
    Option.map (fun pa => blocks pa.2) (simple_allocate simple_init 0)
      = some [(0, ALLOCATED, 0), (4, ALLOCATED, 0), (8, FREE, 240), (252, ALLOCATED, 0)] := by
  refine ⟨?_, by decide, by decide⟩
  intro a h
  unfold simple_allocate
  rw [if_neg (by decide)]
  exact allocLoop_zero_isSome BYTE_COUNT a 0 h

/-- Witness for C10: the free-block condition holds on the initial
arena, so the zero-size allocation succeeds there. -/
theorem C10_alloc_zero_splits_witness :
    (simple_allocate simple_init 0).isSome = true :=
  C10_alloc_zero_splits.1 simple_init (by decide)

/-- C5: on any arena, a successful allocation of n bytes returns a
handle whose block stores a payload size of at least n and at most
n plus `MIN_BLOCK_SIZE - 1 = 5`. -/
theorem C5_fit_correct (a : Arena) (n h : Nat) (a2 : Arena)
    (heq : simple_allocate a n = some (h, a2)) :
    n ≤ a2 (h - 1) ∧ a2 (h - 1) ≤ n + MIN_BLOCK_SIZE - 1 := by
  unfold simple_allocate at heq
  by_cases hn : BYTE_COUNT - CONTROL_FIELDS_SIZE < n
  · rw [if_pos hn] at heq
    cases heq
  · rw [if_neg hn] at heq
    simp only [BYTE_COUNT, CONTROL_FIELDS_SIZE] at hn
    have hfit := allocLoop_fit BYTE_COUNT a 0 n h a2 (by omega) heq
    simp only [MIN_BLOCK_SIZE]
    omega

/-- Witness for C5 at the concrete request 244 on the initial arena. -/
theorem C5_fit_correct_witness :
    244 ≤ consumeArena simple_init 4 (6 - 1) ∧
    consumeArena simple_init 4 (6 - 1) ≤ 244 + MIN_BLOCK_SIZE - 1 :=
  C5_fit_correct simple_init 244 6 (consumeArena simple_init 4) (by rfl)

/-- C8: on any arena, a successful allocation changes only the bytes of
the found block, from its starting offset `h - HEADER_SIZE` to its old
trailer; every byte below the block and every byte from the end of the
block onwards is unchanged, so the fields of every other block are
unchanged. -/
theorem C8_alloc_mutates_only_found_block (a : Arena) (n h : Nat) (a2 : Arena)
    (heq : simple_allocate a n = some (h, a2)) :
    ∀ i, i < h - HEADER_SIZE ∨ h - HEADER_SIZE + a (h - 1) + CONTROL_FIELDS_SIZE ≤ i →
      a2 i = a i := by
  unfold simple_allocate at heq
  by_cases hn : BYTE_COUNT - CONTROL_FIELDS_SIZE < n
  · rw [if_pos hn] at heq
    cases heq
  · rw [if_neg hn] at heq
    exact allocLoop_frame BYTE_COUNT a 0 n h a2 heq

/-- Witness for C8: allocating 244 on the initial arena leaves byte 0
(the bottom sentinel's status) unchanged. -/
theorem C8_alloc_mutates_only_found_block_witness :
    consumeArena simple_init 4 0 = simple_init 0 :=
  (C8_alloc_mutates_only_found_block simple_init 244 6 (consumeArena simple_init 4)
    (by rfl)) 0 (Or.inl (by decide))

end Coalesce
